import Mathlib

/-!
Verification development for the edgex MACD/Stochastic-RSI alert bot
(`edgex_macd_stoch_alert_intrabar_render.py`).

Pandas series are modelled as `List (Option ℚ)` where `none` stands for
NaN; rationals replace float64 (the source performs only field
arithmetic, so ℚ is an exact model).  DataFrames are modelled as
`List Candle`.  Network effects (the kline fetch and the Telegram POST)
are modelled as explicit inputs to each polling cycle.
-/

set_option autoImplicit false

/-! ### Source constants (module-level constants of the script) -/

/-- Source: `MACD_FAST = 12`. -/
def MACD_FAST : ℕ := 12

/-- Source: `MACD_SLOW = 26`. -/
def MACD_SLOW : ℕ := 26

/-- Source: `MACD_SIGNAL = 9`. -/
def MACD_SIGNAL : ℕ := 9

/-- Source: `RSI_PERIOD = 14`. -/
def RSI_PERIOD : ℕ := 14

/-- Source: `RSI_FILTER = 50.0`. -/
def RSI_FILTER : ℚ := 50

/-- Source: `STOCH_RSI_PERIOD = 14`. -/
def STOCH_RSI_PERIOD : ℕ := 14

/-- Source: `STOCH_K_SMOOTH = 3`. -/
def STOCH_K_SMOOTH : ℕ := 3

/-- Source: `STOCH_D_SMOOTH = 3`. -/
def STOCH_D_SMOOTH : ℕ := 3

/-- Source: `K_OVERSOLD = 20.0`. -/
def K_OVERSOLD : ℚ := 20

/-- Source: `K_OVERBOUGHT = 80.0`. -/
def K_OVERBOUGHT : ℚ := 80

/-! ### Series math library (pandas primitives)

`List (Option ℚ)` models a pandas float series; `none` models NaN.
-/

/-- Pandas `s.diff()` on a NaN-free series: first entry NaN, then
pairwise differences `s[i] - s[i-1]`. -/
def diff : List ℚ → List (Option ℚ)
  | [] => []
  | x :: xs => none :: List.zipWith (fun b a => some (b - a)) xs (x :: xs)

/-- Pandas `d.where(d > 0, 0.0)` applied entrywise: keep `d` where the
condition holds; NaN compares false, so NaN entries also become `0.0`.
The result is NaN-free. -/
def whereGtZero : Option ℚ → Option ℚ
  | some x => if 0 < x then some x else some 0
  | none => some 0

/-- Pandas `(-d).where(d < 0, 0.0)` applied entrywise; NaN compares
false, so NaN entries become `0.0`.  The result is NaN-free. -/
def whereLtZeroNeg : Option ℚ → Option ℚ
  | some x => if x < 0 then some (-x) else some 0
  | none => some 0

/-- Extract the values of a window if none of them is NaN. -/
def seqOption : List (Option ℚ) → Option (List ℚ)
  | [] => some []
  | none :: _ => none
  | some x :: rest => (seqOption rest).map (fun xs => x :: xs)

/-- The trailing window of width `w` ending at index `i`
(indices `i+1-w .. i`), defined only when `w` values are available and
none of them is NaN — pandas `rolling(w)` with its default
`min_periods = w`. -/
def windowAt (l : List (Option ℚ)) (w i : ℕ) : Option (List ℚ) :=
  if w ≤ i + 1 then seqOption ((l.drop (i + 1 - w)).take w) else none

/-- Pandas `s.rolling(w).agg` for an aggregate `f` (mean/min/max):
entry `i` aggregates the trailing window ending at `i`, and is NaN
while the window is not yet full or contains NaN. -/
def rollingApply (f : List ℚ → ℚ) (w : ℕ) (l : List (Option ℚ)) : List (Option ℚ) :=
  (List.range l.length).map (fun i => (windowAt l w i).map f)

/-- Arithmetic mean of a window (pandas `.mean()`). -/
def qmean (xs : List ℚ) : ℚ := xs.sum / (xs.length : ℚ)

/-- Minimum of a window (pandas `.min()`). -/
def lmin : List ℚ → ℚ
  | [] => 0
  | x :: xs => xs.foldr min x

/-- Maximum of a window (pandas `.max()`). -/
def lmax : List ℚ → ℚ
  | [] => 0
  | x :: xs => xs.foldr max x

/-- Pandas entrywise binary arithmetic on two aligned series:
NaN propagates. -/
def zipO (f : ℚ → ℚ → ℚ) : List (Option ℚ) → List (Option ℚ) → List (Option ℚ) :=
  List.zipWith (fun a b =>
    match a, b with
    | some x, some y => some (f x y)
    | _, _ => none)

/-- Pandas `s.replace(0, np.nan)`. -/
def replaceZero (l : List (Option ℚ)) : List (Option ℚ) :=
  l.map (fun o => if o = some 0 then none else o)

/-- Pandas `s.ffill()`: carry the last defined value forward; a leading
NaN prefix stays NaN. -/
def ffillAux : Option ℚ → List (Option ℚ) → List (Option ℚ)
  | _, [] => []
  | acc, none :: rest => acc :: ffillAux acc rest
  | _, some v :: rest => some v :: ffillAux (some v) rest

/-- Pandas `s.ffill()`. -/
def ffill (l : List (Option ℚ)) : List (Option ℚ) := ffillAux none l

/-- Pandas `s.fillna(v)` with a scalar `v`: the result has no NaN, so it
is returned as a plain `List ℚ`. -/
def fillna (l : List (Option ℚ)) (v : ℚ) : List ℚ := l.map (fun o => o.getD v)

/-! ### Indicator engine -/

/-- Source `ema`: `s.ewm(span=span, adjust=False).mean()` on a NaN-free
series — the recurrence `y₀ = x₀`, `yₜ = yₜ₋₁ + α (xₜ - yₜ₋₁)` with
`α = 2 / (span + 1)`. -/
def ema (s : List ℚ) (span : ℕ) : List ℚ :=
  match s with
  | [] => []
  | x :: xs => List.scanl (fun y v => y + (2 / ((span : ℚ) + 1)) * (v - y)) x xs

/-- Source `rsi`: deltas, positive/negative parts, trailing-window
averages, `rs = avg_up / avg_dn.replace(0, nan)`,
`out = 100 - 100/(1+rs)`, then `out.ffill().fillna(50.0)`. -/
def rsi (s : List ℚ) (period : ℕ) : List ℚ :=
  let d := diff s
  let up := d.map whereGtZero
  let dn := d.map whereLtZeroNeg
  let avg_up := rollingApply qmean period up
  let avg_dn := rollingApply qmean period dn
  let rs := zipO (· / ·) avg_up (replaceZero avg_dn)
  let out := rs.map (Option.map (fun r => 100 - 100 / (1 + r)))
  fillna (ffill out) 50

/-- Source `macd`: `m = ema(s,fast) - ema(s,slow)`, `sg = ema(m,signal)`,
histogram `m - sg`. -/
def macd (s : List ℚ) (fast slow sgn : ℕ) : List ℚ × List ℚ × List ℚ :=
  let m := List.zipWith (· - ·) (ema s fast) (ema s slow)
  let sg := ema m sgn
  (m, sg, List.zipWith (· - ·) m sg)

/-- Source `stoch_rsi_from_rsi`: rolling min/max of the RSI series,
`denom = (max - min).replace(0, nan)`,
`stoch = ((rsi - min) / denom) * 100`, then
`k = stoch.rolling(k_s).mean().ffill().fillna(50.0)` and
`d = k.rolling(d_s).mean().ffill().fillna(50.0)`. -/
def stoch_rsi_from_rsi (rsi_s : List ℚ) (period k_s d_s : ℕ) : List ℚ × List ℚ :=
  let r := rsi_s.map some
  let min_r := rollingApply lmin period r
  let max_r := rollingApply lmax period r
  let denom := replaceZero (zipO (· - ·) max_r min_r)
  let stoch := (zipO (· / ·) (zipO (· - ·) r min_r) denom).map (Option.map (· * 100))
  let k := fillna (ffill (rollingApply qmean k_s stoch)) 50
  let d := fillna (ffill (rollingApply qmean d_s (k.map some))) 50
  (k, d)

/-! ### Data model -/

/-- One OHLCV candle (a DataFrame row): timestamp (ms), then
open, high, low, close, volume. -/
structure Candle where
  timestamp : ℤ
  openPx : ℚ
  high : ℚ
  low : ℚ
  close : ℚ
  volume : ℚ
deriving DecidableEq, Inhabited, Repr

/-- One indicator row of the frame `di`: fields `rsi`, `macd`, `sig`,
`k`, `d` (in this order). -/
structure Row where
  rsi : ℚ
  macd : ℚ
  sig : ℚ
  k : ℚ
  d : ℚ
deriving DecidableEq, Inhabited, Repr

/-- Signal direction — the source's `"LONG"` / `"SHORT"` strings. -/
inductive Direction
  | LONG
  | SHORT
deriving DecidableEq, Repr

/-- The `info` dict built by `check_signal`: fields `ts`, `px`, `macd`,
`sig`, `k`, `d`, `rsi` (in this order). -/
structure Info where
  ts : ℤ
  px : ℚ
  macd : ℚ
  sig : ℚ
  k : ℚ
  d : ℚ
  rsi : ℚ
deriving DecidableEq, Repr

/-! ### Signal detector -/

/-- The five indicator columns added to the frame `di` in
`check_signal`: `(rsi14, macd_line, sig_line, k, d)`. -/
def indicatorFrame (df : List Candle) :
    List ℚ × List ℚ × List ℚ × List ℚ × List ℚ :=
  let close := df.map Candle.close
  let rsi14 := rsi close RSI_PERIOD
  let m3 := macd close MACD_FAST MACD_SLOW MACD_SIGNAL
  let kd := stoch_rsi_from_rsi rsi14 STOCH_RSI_PERIOD STOCH_K_SMOOTH STOCH_D_SMOOTH
  (rsi14, m3.1, m3.2.1, kd.1, kd.2)

/-- Indicator row `i` of the frame (`di.iloc[i]` restricted to the five
indicator columns); the guard in `check_signal` keeps every access in
range, so the default value is never consulted there. -/
def rowAt (df : List Candle) (i : ℕ) : Row :=
  let f := indicatorFrame df
  ⟨f.1.getD i 0, f.2.1.getD i 0, f.2.2.1.getD i 0, f.2.2.2.1.getD i 0, f.2.2.2.2.getD i 0⟩

/-- Source line 105/107 shape: `(prev_a <= prev_b) and (curr_a > curr_b)`. -/
def crossUp (pa pb ca cb : ℚ) : Bool :=
  decide (pa ≤ pb) && decide (cb < ca)

/-- Source line 106/108 shape: `(prev_a >= prev_b) and (curr_a < curr_b)`. -/
def crossDown (pa pb ca cb : ℚ) : Bool :=
  decide (pb ≤ pa) && decide (ca < cb)

/-- Source `long_ok = macd_up and k_up and from_os and (curr["rsi"] >= RSI_FILTER)`. -/
def long_cond (prev curr : Row) : Bool :=
  crossUp prev.macd prev.sig curr.macd curr.sig &&
  crossUp prev.k prev.d curr.k curr.d &&
  decide (prev.k < K_OVERSOLD) &&
  decide (RSI_FILTER ≤ curr.rsi)

/-- Source `short_ok = macd_down and k_down and from_ob and (curr["rsi"] <= RSI_FILTER)`. -/
def short_cond (prev curr : Row) : Bool :=
  crossDown prev.macd prev.sig curr.macd curr.sig &&
  crossDown prev.k prev.d curr.k curr.d &&
  decide (K_OVERBOUGHT < prev.k) &&
  decide (curr.rsi ≤ RSI_FILTER)

/-- Source `check_signal`: guard on `df.empty or len(df) < max(MACD_SLOW,
RSI_PERIOD) + 5`, then evaluate the crossover rules on the last two
indicator rows and return `(direction?, info?)`. -/
def check_signal (df : List Candle) : Option Direction × Option Info :=
  if df.isEmpty || decide (df.length < max MACD_SLOW RSI_PERIOD + 5) then (none, none)
  else
    let prev := rowAt df (df.length - 2)
    let curr := rowAt df (df.length - 1)
    let c := df.getD (df.length - 1) default
    let info : Info := ⟨c.timestamp, c.close, curr.macd, curr.sig, curr.k, curr.d, curr.rsi⟩
    if long_cond prev curr then (some Direction.LONG, some info)
    else if short_cond prev curr then (some Direction.SHORT, some info)
    else (none, some info)

/-! ### Notification and polling loop -/

/-- Source `tg_send`: the HTTP POST is wrapped in `try/except`; a raised
delivery error is caught and printed, never re-raised.  Modelled with the
POST outcome as an explicit argument; the returned list is the log output
(error line on failure), and totality of the function is the "no
exception escapes" guarantee. -/
def tg_send (postResult : Except String Unit) : List String :=
  match postResult with
  | Except.ok _ => []
  | Except.error e => ["텔레그램 오류: " ++ e]

/-- The mutable state of `main`'s loop: `alerted` is the dedup set
`last_alerted_candle` (as a list with set membership), `sent` is the
chronological log of timestamps for which a send attempt was made
(an observer of the `tg_send(msg)` call, not source state). -/
structure LoopState where
  alerted : List ℤ
  sent : List ℤ
deriving DecidableEq, Repr

/-- One iteration of `main`'s `while True` body.  The cycle input is the
fetched DataFrame together with the delivery outcome the Telegram POST
would have this cycle.  `if df.empty: continue`; otherwise run
`check_signal`; on a fresh signal (`signal and info and ts not in set`)
attempt the send and add the timestamp to the dedup set. -/
def cycle (st : LoopState) (inp : List Candle × Except String Unit) : LoopState :=
  if inp.1.isEmpty then st
  else
    match check_signal inp.1 with
    | (some _, some info) =>
        if info.ts ∈ st.alerted then st
        else
          let _log := tg_send inp.2
          ⟨info.ts :: st.alerted, st.sent ++ [info.ts]⟩
    | _ => st

/-- The polling loop run over a finite prefix of cycle inputs, starting
from `main`'s initial state (`last_alerted_candle = set()`). -/
def runLoop (inputs : List (List Candle × Except String Unit)) : LoopState :=
  inputs.foldl cycle ⟨[], []⟩

/-! ### Concrete inputs used by witnesses and counterexamples -/

/-- A flat candle: all prices equal to 7. -/
def flatCandle : Candle := ⟨0, 7, 7, 7, 7, 0⟩

/-- A flat DataFrame long enough to pass the length guard. -/
def flat31c : List Candle := List.replicate 31 flatCandle

/-- A strictly rising close series of length 16 > RSI period 14. -/
def risingCloses : List ℚ :=
  [0, 1, 2, 3, 4, 5, 6, 7, 8, 9, 10, 11, 12, 13, 14, 15]

/-- The claim's LONG condition on the last two indicator rows. -/
def LONG_rule (df : List Candle) : Prop :=
  ((rowAt df (df.length - 2)).macd ≤ (rowAt df (df.length - 2)).sig ∧
    (rowAt df (df.length - 1)).sig < (rowAt df (df.length - 1)).macd) ∧
  ((rowAt df (df.length - 2)).k ≤ (rowAt df (df.length - 2)).d ∧
    (rowAt df (df.length - 1)).d < (rowAt df (df.length - 1)).k) ∧
  (rowAt df (df.length - 2)).k < K_OVERSOLD ∧
  RSI_FILTER ≤ (rowAt df (df.length - 1)).rsi

/-- The claim's SHORT condition on the last two indicator rows. -/
def SHORT_rule (df : List Candle) : Prop :=
  ((rowAt df (df.length - 2)).sig ≤ (rowAt df (df.length - 2)).macd ∧
    (rowAt df (df.length - 1)).macd < (rowAt df (df.length - 1)).sig) ∧
  ((rowAt df (df.length - 2)).d ≤ (rowAt df (df.length - 2)).k ∧
    (rowAt df (df.length - 1)).k < (rowAt df (df.length - 1)).d) ∧
  K_OVERBOUGHT < (rowAt df (df.length - 2)).k ∧
  (rowAt df (df.length - 1)).rsi ≤ RSI_FILTER

/-- Invariant of the polling loop: send attempts are pairwise distinct
and every sent timestamp is recorded in the dedup set. -/
def loopInv (st : LoopState) : Prop :=
  st.sent.Nodup ∧ ∀ t ∈ st.sent, t ∈ st.alerted

/-! ### Basic helper lemmas -/

/-- If the long rule fires, the short rule cannot: the long rule needs
`curr.sig < curr.macd` while the short rule needs `curr.macd < curr.sig`. -/
theorem long_short_mutex (prev curr : Row) :
    long_cond prev curr = true → short_cond prev curr = false := by
  intro h
  have hmacd : curr.sig < curr.macd := by
    simp only [long_cond, crossUp, Bool.and_eq_true, decide_eq_true_eq] at h
    exact h.1.1.1.2
  have hnot : ¬ curr.macd < curr.sig := lt_asymm hmacd
  simp only [short_cond, crossDown, decide_eq_false hnot, Bool.and_false, Bool.false_and]

/-! ### Claim theorems (first batch) -/

/-- C9: for every non-empty numeric series and every span, `ema` returns
a sequence of exactly the input's length whose first element equals the
first input element. -/
theorem C9_ema_shape (s : List ℚ) (span : ℕ) (h : s ≠ []) :
    (ema s span).length = s.length ∧ (ema s span).head? = s.head? := by
  cases s with
  | nil => exact absurd rfl h
  | cons x xs =>
    constructor
    · simp [ema, List.length_scanl]
    · cases xs <;> rfl

/-- Witness for C9 at the concrete series `[1, 2, 3]` with span 5. -/
theorem C9_ema_shape_witness :
    (ema [1, 2, 3] 5).length = 3 ∧ (ema [1, 2, 3] 5).head? = some 1 :=
  C9_ema_shape [1, 2, 3] 5 (by decide)

/-- C5: crossover boundary semantics: equality on the prev side together
with a strict pass on the curr side fires `crossUp`; equality on the curr
side fires neither `crossUp` nor `crossDown`.  `check_signal` uses the
same two functions for the MACD/signal and the K/D cross, so the K/D case
is the same statement. -/
theorem C5_crossover_boundary (pa ca cb x y c : ℚ) :
    (cb < ca → crossUp pa pa ca cb = true)
  ∧ crossUp x y c c = false
  ∧ crossDown x y c c = false := by
  refine ⟨fun h => ?_, ?_, ?_⟩
  · simp [crossUp, le_refl, h]
  · simp [crossUp, lt_irrefl]
  · simp [crossDown, lt_irrefl]

/-- Witness for C5 at concrete boundary inputs. -/
theorem C5_crossover_boundary_witness :
    crossUp 1 1 2 1 = true ∧ crossUp 3 4 5 5 = false ∧ crossDown 3 4 5 5 = false :=
  ⟨(C5_crossover_boundary 1 2 1 3 4 5).1 (by decide),
   (C5_crossover_boundary 1 2 1 3 4 5).2.1,
   (C5_crossover_boundary 1 2 1 3 4 5).2.2⟩

/-- C10: the LONG rule and the SHORT rule of `check_signal` are mutually
exclusive by construction: their conjunction is identically false, for
every pair of indicator rows. -/
theorem C10_long_short_exclusive (prev curr : Row) :
    (long_cond prev curr && short_cond prev curr) = false := by
  cases h : long_cond prev curr with
  | false => simp
  | true => simp [long_short_mutex prev curr h]

theorem isEmpty_false_of_len {df : List Candle} (h : max MACD_SLOW RSI_PERIOD + 5 ≤ df.length) :
    df.isEmpty = false := by
  cases df with
  | nil => simp at h
  | cons a l => rfl

/-- C2: an input shorter than `max(MACD_SLOW, RSI_PERIOD) + 5` (in
particular an empty one) makes `check_signal` return `(none, none)`;
a sufficiently long input on which no rule fires returns `none` together
with a present info payload, so "insufficient data" is distinguishable
from "no crossover this cycle". -/
theorem C2_insufficient_data (df : List Candle) :
    (df.length < max MACD_SLOW RSI_PERIOD + 5 → check_signal df = (none, none))
  ∧ (max MACD_SLOW RSI_PERIOD + 5 ≤ df.length →
      (check_signal df).1 = none → (check_signal df).2 ≠ none) := by
  constructor
  · intro h
    simp [check_signal, h]
  · intro h _
    have hne : df.isEmpty = false := isEmpty_false_of_len h
    have hlt : ¬ (df.length < max MACD_SLOW RSI_PERIOD + 5) := not_lt.mpr h
    simp only [check_signal, hne, decide_eq_false hlt, Bool.or_false, Bool.false_or,
      if_false, Bool.false_eq_true]
    split
    · simp
    · split <;> simp

theorem long_cond_iff (df : List Candle) :
    long_cond (rowAt df (df.length - 2)) (rowAt df (df.length - 1)) = true ↔ LONG_rule df := by
  simp only [long_cond, crossUp, LONG_rule, Bool.and_eq_true, decide_eq_true_eq, and_assoc]

theorem short_cond_iff (df : List Candle) :
    short_cond (rowAt df (df.length - 2)) (rowAt df (df.length - 1)) = true ↔ SHORT_rule df := by
  simp only [short_cond, crossDown, SHORT_rule, Bool.and_eq_true, decide_eq_true_eq, and_assoc]

/-- C3: on every sufficiently long input, `check_signal` returns LONG
iff macdCrossUp, kCrossUp, fromOversold and `curr.rsi ≥ 50` all hold on
the last two indicator rows, and SHORT iff the symmetric conditions
hold. -/
theorem C3_signal_rules (df : List Candle)
    (h : max MACD_SLOW RSI_PERIOD + 5 ≤ df.length) :
    ((check_signal df).1 = some Direction.LONG ↔ LONG_rule df)
  ∧ ((check_signal df).1 = some Direction.SHORT ↔ SHORT_rule df) := by
  have hne : df.isEmpty = false := isEmpty_false_of_len h
  have hlt : ¬ (df.length < max MACD_SLOW RSI_PERIOD + 5) := not_lt.mpr h
  rw [← long_cond_iff, ← short_cond_iff]
  cases hl : long_cond (rowAt df (df.length - 2)) (rowAt df (df.length - 1)) with
  | true =>
    have hs := long_short_mutex _ _ hl
    simp [check_signal, hne, decide_eq_false hlt, hl, hs]
  | false =>
    cases hs : short_cond (rowAt df (df.length - 2)) (rowAt df (df.length - 1)) with
    | true => simp [check_signal, hne, decide_eq_false hlt, hl, hs]
    | false => simp [check_signal, hne, decide_eq_false hlt, hl, hs]

theorem cycle_inv (st : LoopState) (inp : List Candle × Except String Unit)
    (h : loopInv st) : loopInv (cycle st inp) := by
  unfold cycle
  split
  · exact h
  · split
    · rename_i sig info heq
      split
      · exact h
      · rename_i hnotin
        refine ⟨?_, ?_⟩
        · rw [List.nodup_append]
          refine ⟨h.1, List.nodup_singleton _, ?_⟩
          intro a ha hb
          rw [List.mem_singleton] at hb
          subst hb
          exact hnotin (h.2 _ ha)
        · intro t ht
          rcases List.mem_append.mp ht with h1 | h1
          · exact List.mem_cons_of_mem _ (h.2 t h1)
          · rw [List.mem_singleton] at h1
            subst h1
            exact List.mem_cons_self _ _
    · exact h

theorem foldl_cycle_inv (inputs : List (List Candle × Except String Unit)) :
    ∀ st : LoopState, loopInv st → loopInv (inputs.foldl cycle st) := by
  induction inputs with
  | nil => intro st h; exact h
  | cons inp rest ih =>
    intro st h
    exact ih (cycle st inp) (cycle_inv st inp h)

/-- C4: across the lifetime of the dedup set, a notification is sent at
most once per candle timestamp (the send log of any run from the initial
empty state has no duplicates), and the dedup set never shrinks (each
cycle's output set contains the input set). -/
theorem C4_dedup_at_most_once (inputs : List (List Candle × Except String Unit)) :
    (runLoop inputs).sent.Nodup
  ∧ (∀ (st : LoopState) (inp : List Candle × Except String Unit),
      st.alerted ⊆ (cycle st inp).alerted)
  ∧ (∀ (st : LoopState) (inp : List Candle × Except String Unit) (t : ℤ),
      t ∈ st.alerted → t ∈ (cycle st inp).sent → t ∈ st.sent) := by
  refine ⟨(foldl_cycle_inv inputs ⟨[], []⟩ ⟨List.nodup_nil, by intro t ht; cases ht⟩).1, ?_, ?_⟩
  · intro st inp
    unfold cycle
    split
    · exact List.Subset.refl _
    · split
      · split
        · exact List.Subset.refl _
        · exact List.subset_cons_self _ _
      · exact List.Subset.refl _
  · intro st inp t ht hs
    unfold cycle at hs
    split at hs
    · exact hs
    · split at hs
      · split at hs
        · exact hs
        · rename_i hnotin
          rcases List.mem_append.mp hs with h1 | h1
          · exact h1
          · rw [List.mem_singleton] at h1
            subst h1
            exact absurd ht hnotin
      · exact hs

/-- C7: a failed notification delivery is absorbed inside `tg_send`
(the function returns normally, logging the error) and the polling cycle
evolves exactly as on success, so the candle's timestamp is still added
to the dedup set and at most one send attempt is ever made per candle. -/
theorem C7_send_failure_absorbed (st : LoopState) (df : List Candle) (e : String) :
    cycle st (df, Except.error e) = cycle st (df, Except.ok ())
  ∧ tg_send (Except.error e) = ["텔레그램 오류: " ++ e] :=
  ⟨rfl, rfl⟩

/-! ### Length lemmas -/

theorem length_diff (s : List ℚ) : (diff s).length = s.length := by
  cases s with
  | nil => rfl
  | cons x xs => simp [diff]

theorem length_rollingApply (f : List ℚ → ℚ) (w : ℕ) (l : List (Option ℚ)) :
    (rollingApply f w l).length = l.length := by
  simp [rollingApply]

theorem length_zipO (f : ℚ → ℚ → ℚ) (a b : List (Option ℚ)) :
    (zipO f a b).length = min a.length b.length := by
  simp [zipO]

theorem length_replaceZero (l : List (Option ℚ)) : (replaceZero l).length = l.length := by
  simp [replaceZero]

theorem length_ffillAux (acc : Option ℚ) (l : List (Option ℚ)) :
    (ffillAux acc l).length = l.length := by
  induction l generalizing acc with
  | nil => rfl
  | cons o rest ih => cases o <;> simp [ffillAux, ih]

theorem length_ffill (l : List (Option ℚ)) : (ffill l).length = l.length :=
  length_ffillAux none l

theorem length_fillna (l : List (Option ℚ)) (v : ℚ) : (fillna l v).length = l.length := by
  simp [fillna]

theorem length_ema (s : List ℚ) (span : ℕ) : (ema s span).length = s.length := by
  cases s with
  | nil => rfl
  | cons x xs => simp [ema, List.length_scanl]

theorem length_rsi (s : List ℚ) (p : ℕ) : (rsi s p).length = s.length := by
  simp [rsi, length_fillna, length_ffill, length_zipO, length_rollingApply,
    length_replaceZero, length_diff]

/-! ### Membership lemmas -/

theorem mem_ffillAux_some (acc : Option ℚ) (l : List (Option ℚ)) (v : ℚ)
    (h : some v ∈ ffillAux acc l) : some v ∈ l ∨ some v = acc := by
  induction l generalizing acc with
  | nil => cases h
  | cons o rest ih =>
    cases o with
    | none =>
      rcases List.mem_cons.mp h with h1 | h1
      · exact Or.inr h1
      · rcases ih acc h1 with h2 | h2
        · exact Or.inl (List.mem_cons_of_mem _ h2)
        · exact Or.inr h2
    | some x =>
      rcases List.mem_cons.mp h with h1 | h1
      · exact Or.inl (h1 ▸ List.mem_cons_self _ _)
      · rcases ih (some x) h1 with h2 | h2
        · exact Or.inl (List.mem_cons_of_mem _ h2)
        · exact Or.inl (h2 ▸ List.mem_cons_self _ _)

theorem mem_fillna_ffill (l : List (Option ℚ)) (v y : ℚ)
    (h : y ∈ fillna (ffill l) v) : y = v ∨ some y ∈ l := by
  rw [fillna, List.mem_map] at h
  obtain ⟨o, ho, hoy⟩ := h
  cases o with
  | none => exact Or.inl hoy.symm
  | some x =>
    rcases mem_ffillAux_some none l x ho with h1 | h1
    · exact Or.inr (by simpa [← hoy] using h1)
    · cases h1

theorem seqOption_mem (m : List (Option ℚ)) (xs : List ℚ)
    (h : seqOption m = some xs) : ∀ a ∈ xs, some a ∈ m := by
  induction m generalizing xs with
  | nil =>
    rw [seqOption] at h
    cases h
    intro a ha
    cases ha
  | cons o rest ih =>
    cases o with
    | none => cases h
    | some x =>
      rw [seqOption] at h
      cases hr : seqOption rest with
      | none => rw [hr] at h; cases h
      | some ys =>
        rw [hr] at h
        cases h
        intro a ha
        rcases List.mem_cons.mp ha with h1 | h1
        · exact h1 ▸ List.mem_cons_self _ _
        · exact List.mem_cons_of_mem _ (ih ys hr a h1)

theorem windowAt_mem (l : List (Option ℚ)) (w i : ℕ) (ws : List ℚ)
    (h : windowAt l w i = some ws) : ∀ a ∈ ws, some a ∈ l := by
  rw [windowAt] at h
  split at h
  · intro a ha
    have h1 := seqOption_mem _ _ h a ha
    exact List.mem_of_mem_drop (List.mem_of_mem_take h1)
  · cases h

theorem some_mem_rollingApply (f : List ℚ → ℚ) (w : ℕ) (l : List (Option ℚ)) (x : ℚ)
    (h : some x ∈ rollingApply f w l) :
    ∃ ws, (∀ a ∈ ws, some a ∈ l) ∧ x = f ws := by
  rw [rollingApply, List.mem_map] at h
  obtain ⟨i, _, hmap⟩ := h
  cases hw : windowAt l w i with
  | none => rw [hw] at hmap; cases hmap
  | some ws =>
    rw [hw] at hmap
    exact ⟨ws, windowAt_mem l w i ws hw, by injection hmap with h2; exact h2.symm⟩

theorem some_mem_zipO (f : ℚ → ℚ → ℚ) (a b : List (Option ℚ)) (z : ℚ)
    (h : some z ∈ zipO f a b) :
    ∃ x y, some x ∈ a ∧ some y ∈ b ∧ z = f x y := by
  induction a generalizing b with
  | nil => simp [zipO] at h
  | cons o rest ih =>
    cases b with
    | nil => simp [zipO] at h
    | cons p brest =>
      rw [zipO, List.zipWith_cons_cons] at h
      rcases List.mem_cons.mp h with h1 | h1
      · cases o with
        | none => cases h1
        | some x =>
          cases p with
          | none => cases h1
          | some y =>
            refine ⟨x, y, List.mem_cons_self _ _, List.mem_cons_self _ _, ?_⟩
            injection h1.symm with h2
            exact h2.symm
      · obtain ⟨x, y, hx, hy, hz⟩ := ih brest h1
        exact ⟨x, y, List.mem_cons_of_mem _ hx, List.mem_cons_of_mem _ hy, hz⟩

theorem some_mem_replaceZero (l : List (Option ℚ)) (z : ℚ)
    (h : some z ∈ replaceZero l) : some z ∈ l ∧ z ≠ 0 := by
  rw [replaceZero, List.mem_map] at h
  obtain ⟨o, ho, heq⟩ := h
  split at heq
  · cases heq
  · rename_i hne
    subst heq
    refine ⟨ho, fun h0 => hne (by rw [h0])⟩

theorem some_mem_map_omap (g : ℚ → ℚ) (l : List (Option ℚ)) (z : ℚ)
    (h : some z ∈ l.map (Option.map g)) : ∃ r, some r ∈ l ∧ z = g r := by
  rw [List.mem_map] at h
  obtain ⟨o, ho, heq⟩ := h
  cases o with
  | none => cases heq
  | some r => exact ⟨r, ho, by injection heq with h2; exact h2.symm⟩

/-! ### Mean bounds -/

theorem qmean_nonneg (xs : List ℚ) (h : ∀ a ∈ xs, 0 ≤ a) : 0 ≤ qmean xs :=
  div_nonneg (List.sum_nonneg h) (Nat.cast_nonneg _)

theorem qmean_le (xs : List ℚ) (B : ℚ) (hB : 0 ≤ B) (h : ∀ a ∈ xs, a ≤ B) :
    qmean xs ≤ B := by
  cases xs with
  | nil => simpa [qmean] using hB
  | cons a l =>
    rw [qmean, div_le_iff₀ (by exact_mod_cast l.length.succ_pos)]
    have hs := List.sum_le_card_nsmul (a :: l) B h
    rw [nsmul_eq_mul] at hs
    calc (a :: l).sum ≤ ((a :: l).length : ℚ) * B := hs
    _ = B * ((a :: l).length : ℚ) := by ring

/-- Values kept by `d.where(d > 0, 0.0)` are nonnegative. -/
theorem whereGtZero_nonneg (o : Option ℚ) (v : ℚ) (h : whereGtZero o = some v) : 0 ≤ v := by
  cases o with
  | none => injection h with h1; exact h1 ▸ le_refl 0
  | some x =>
    rw [whereGtZero] at h
    split at h <;> injection h with h1 <;> subst h1
    · linarith [show (0:ℚ) < x by assumption]
    · exact le_refl 0

/-- Values kept by `(-d).where(d < 0, 0.0)` are nonnegative. -/
theorem whereLtZeroNeg_nonneg (o : Option ℚ) (v : ℚ) (h : whereLtZeroNeg o = some v) : 0 ≤ v := by
  cases o with
  | none => injection h with h1; exact h1 ▸ le_refl 0
  | some x =>
    rw [whereLtZeroNeg] at h
    split at h <;> injection h with h1 <;> subst h1
    · linarith [show x < 0 by assumption]
    · exact le_refl 0

/-- Every value of the RSI series lies in [0, 100]. -/
theorem rsi_mem_bounds (s : List ℚ) (p : ℕ) : ∀ x ∈ rsi s p, 0 ≤ x ∧ x ≤ 100 := by
  intro x hx
  rw [rsi] at hx
  rcases mem_fillna_ffill _ _ _ hx with h50 | hmem
  · subst h50; norm_num
  · obtain ⟨r, hr, hxr⟩ := some_mem_map_omap _ _ _ hmem
    obtain ⟨a, b, ha, hb, hrab⟩ := some_mem_zipO _ _ _ _ hr
    obtain ⟨hb', hbne⟩ := some_mem_replaceZero _ _ hb
    obtain ⟨ws, hws, haw⟩ := some_mem_rollingApply _ _ _ _ ha
    obtain ⟨wsd, hwsd, hbw⟩ := some_mem_rollingApply _ _ _ _ hb'
    have hanneg : 0 ≤ a := by
      subst haw
      refine qmean_nonneg _ ?_
      intro v hv
      obtain ⟨o, _, ho⟩ := List.mem_map.mp (hws v hv)
      exact whereGtZero_nonneg o v ho
    have hbnneg : 0 ≤ b := by
      subst hbw
      refine qmean_nonneg _ ?_
      intro v hv
      obtain ⟨o, _, ho⟩ := List.mem_map.mp (hwsd v hv)
      exact whereLtZeroNeg_nonneg o v ho
    have hbpos : 0 < b := lt_of_le_of_ne hbnneg (Ne.symm hbne)
    have hrnneg : 0 ≤ r := hrab ▸ div_nonneg hanneg hbnneg
    have h1r : (0:ℚ) < 1 + r := by linarith
    have hd1 : 100 / (1 + r) ≤ 100 := by
      apply div_le_self (by norm_num)
      linarith
    have hd2 : 0 < 100 / (1 + r) := by positivity
    subst hxr
    constructor <;> linarith

/-! ### Min/max/mean of windows -/

theorem foldr_min_le_init (b : ℚ) (l : List ℚ) : l.foldr min b ≤ b := by
  induction l with
  | nil => exact le_refl b
  | cons y ys ih => exact le_trans (min_le_right y _) ih

theorem foldr_min_le_mem (b : ℚ) (l : List ℚ) : ∀ a ∈ l, l.foldr min b ≤ a := by
  induction l with
  | nil => intro a ha; cases ha
  | cons y ys ih =>
    intro a ha
    rcases List.mem_cons.mp ha with h1 | h1
    · exact h1 ▸ min_le_left _ _
    · exact le_trans (min_le_right y _) (ih a h1)

theorem le_foldr_min (b B : ℚ) (l : List ℚ) (hb : B ≤ b) (h : ∀ a ∈ l, B ≤ a) :
    B ≤ l.foldr min b := by
  induction l with
  | nil => exact hb
  | cons y ys ih =>
    refine le_min (h y (List.mem_cons_self _ _)) (ih ?_)
    intro a ha
    exact h a (List.mem_cons_of_mem _ ha)

theorem init_le_foldr_max (b : ℚ) (l : List ℚ) : b ≤ l.foldr max b := by
  induction l with
  | nil => exact le_refl b
  | cons y ys ih => exact le_trans ih (le_max_right y _)

theorem mem_le_foldr_max (b : ℚ) (l : List ℚ) : ∀ a ∈ l, a ≤ l.foldr max b := by
  induction l with
  | nil => intro a ha; cases ha
  | cons y ys ih =>
    intro a ha
    rcases List.mem_cons.mp ha with h1 | h1
    · exact h1 ▸ le_max_left _ _
    · exact le_trans (ih a h1) (le_max_right y _)

theorem foldr_max_le (b B : ℚ) (l : List ℚ) (hb : b ≤ B) (h : ∀ a ∈ l, a ≤ B) :
    l.foldr max b ≤ B := by
  induction l with
  | nil => exact hb
  | cons y ys ih =>
    refine max_le (h y (List.mem_cons_self _ _)) (ih ?_)
    intro a ha
    exact h a (List.mem_cons_of_mem _ ha)

theorem lmin_le (xs : List ℚ) : ∀ a ∈ xs, lmin xs ≤ a := by
  cases xs with
  | nil => intro a ha; cases ha
  | cons x ys =>
    intro a ha
    rcases List.mem_cons.mp ha with h1 | h1
    · exact h1 ▸ foldr_min_le_init x ys
    · exact foldr_min_le_mem x ys a h1

theorem le_lmax (xs : List ℚ) : ∀ a ∈ xs, a ≤ lmax xs := by
  cases xs with
  | nil => intro a ha; cases ha
  | cons x ys =>
    intro a ha
    rcases List.mem_cons.mp ha with h1 | h1
    · exact h1 ▸ init_le_foldr_max x ys
    · exact mem_le_foldr_max x ys a h1

theorem lmin_const (xs : List ℚ) (c : ℚ) (hne : xs ≠ []) (h : ∀ a ∈ xs, a = c) :
    lmin xs = c := by
  cases xs with
  | nil => exact absurd rfl hne
  | cons x ys =>
    have hx : x = c := h x (List.mem_cons_self _ _)
    refine le_antisymm (hx ▸ foldr_min_le_init x ys) ?_
    refine le_foldr_min x c ys (le_of_eq hx.symm) ?_
    intro a ha
    exact le_of_eq (h a (List.mem_cons_of_mem _ ha)).symm

theorem lmax_const (xs : List ℚ) (c : ℚ) (hne : xs ≠ []) (h : ∀ a ∈ xs, a = c) :
    lmax xs = c := by
  cases xs with
  | nil => exact absurd rfl hne
  | cons x ys =>
    have hx : x = c := h x (List.mem_cons_self _ _)
    refine le_antisymm ?_ (hx ▸ init_le_foldr_max x ys)
    refine foldr_max_le x c ys (le_of_eq hx) ?_
    intro a ha
    exact le_of_eq (h a (List.mem_cons_of_mem _ ha))

theorem qmean_const (xs : List ℚ) (c : ℚ) (hne : xs ≠ []) (h : ∀ a ∈ xs, a = c) :
    qmean xs = c := by
  have hn : (xs.length : ℚ) ≠ 0 :=
    Nat.cast_ne_zero.mpr (List.length_pos.mpr hne).ne'
  have hsum : xs.sum = (xs.length : ℚ) * c := by
    conv_lhs => rw [List.eq_replicate_iff.mpr ⟨rfl, h⟩]
    rw [List.sum_replicate, nsmul_eq_mul]
  rw [qmean, hsum, mul_div_cancel_left₀ _ hn]

theorem qmean_zero (xs : List ℚ) (h : ∀ a ∈ xs, a = 0) : qmean xs = 0 := by
  rw [qmean, List.sum_eq_zero h, zero_div]

/-! ### More window lemmas -/

theorem seqOption_length (m : List (Option ℚ)) (xs : List ℚ)
    (h : seqOption m = some xs) : xs.length = m.length := by
  induction m generalizing xs with
  | nil => rw [seqOption] at h; cases h; rfl
  | cons o rest ih =>
    cases o with
    | none => cases h
    | some x =>
      rw [seqOption] at h
      cases hr : seqOption rest with
      | none => rw [hr] at h; cases h
      | some ys =>
        rw [hr] at h
        cases h
        simp [ih ys hr]

theorem seqOption_getElem? (m : List (Option ℚ)) (xs : List ℚ)
    (h : seqOption m = some xs) (j : ℕ) : m[j]? = (xs[j]?).map some := by
  induction m generalizing xs j with
  | nil => rw [seqOption] at h; cases h; simp
  | cons o rest ih =>
    cases o with
    | none => cases h
    | some x =>
      rw [seqOption] at h
      cases hr : seqOption rest with
      | none => rw [hr] at h; cases h
      | some ys =>
        rw [hr] at h
        cases h
        cases j with
        | zero => simp
        | succ jj => simpa using ih ys hr jj

theorem seqOption_none_mem (m : List (Option ℚ)) (h : none ∈ m) : seqOption m = none := by
  induction m with
  | nil => cases h
  | cons o rest ih =>
    cases o with
    | none => rfl
    | some x =>
      rcases List.mem_cons.mp h with h1 | h1
      · simp at h1
      · rw [seqOption, ih h1]
        rfl

theorem seqOption_replicate (n : ℕ) (c : ℚ) :
    seqOption (List.replicate n (some c)) = some (List.replicate n c) := by
  induction n with
  | zero => rfl
  | succ m ih =>
    rw [List.replicate_succ, seqOption, ih]
    rfl

theorem windowAt_length (l : List (Option ℚ)) (w i : ℕ) (ws : List ℚ)
    (hi : i < l.length) (h : windowAt l w i = some ws) : ws.length = w := by
  rw [windowAt] at h
  split at h
  · rename_i hw
    have h1 := seqOption_length _ _ h
    rw [List.length_take, List.length_drop] at h1
    omega
  · cases h

theorem windowAt_self_mem (l : List (Option ℚ)) (w i : ℕ) (ws : List ℚ)
    (hw : 1 ≤ w) (hi : i < l.length) (h : windowAt l w i = some ws) :
    ∃ v, l[i]? = some (some v) ∧ v ∈ ws := by
  rw [windowAt] at h
  split at h
  · rename_i hwi
    have hg := seqOption_getElem? _ _ h (w - 1)
    rw [List.getElem?_take, if_pos (by omega), List.getElem?_drop] at hg
    have hieq : i + 1 - w + (w - 1) = i := by omega
    rw [hieq] at hg
    obtain ⟨o, ho⟩ : ∃ o, l[i]? = some o := ⟨_, List.getElem?_eq_getElem hi⟩
    rw [ho] at hg
    cases hws : ws[w - 1]? with
    | none => rw [hws] at hg; cases hg
    | some v =>
      rw [hws] at hg
      injection hg with h2
      exact ⟨v, by rw [ho, h2], List.getElem?_mem hws⟩
  · cases h

theorem rollingApply_getElem? (f : List ℚ → ℚ) (w : ℕ) (l : List (Option ℚ)) (i : ℕ)
    (hi : i < l.length) :
    (rollingApply f w l)[i]? = some ((windowAt l w i).map f) := by
  rw [rollingApply, List.getElem?_map, List.getElem?_range hi]
  rfl

theorem some_mem_rollingApply_full (f : List ℚ → ℚ) (w : ℕ) (l : List (Option ℚ)) (x : ℚ)
    (h : some x ∈ rollingApply f w l) :
    ∃ ws, ws.length = w ∧ (∀ a ∈ ws, some a ∈ l) ∧ x = f ws := by
  rw [rollingApply, List.mem_map] at h
  obtain ⟨i, hir, hmap⟩ := h
  rw [List.mem_range] at hir
  cases hw : windowAt l w i with
  | none => rw [hw] at hmap; cases hmap
  | some ws =>
    rw [hw] at hmap
    refine ⟨ws, windowAt_length l w i ws hir hw, windowAt_mem l w i ws hw, ?_⟩
    injection hmap with h2
    exact h2.symm

theorem rollingApply_all_none (f : List ℚ → ℚ) (w : ℕ) (l : List (Option ℚ))
    (hw : 1 ≤ w) (h : ∀ o ∈ l, o = none) :
    ∀ o ∈ rollingApply f w l, o = none := by
  intro o ho
  rw [rollingApply, List.mem_map] at ho
  obtain ⟨i, hir, hmap⟩ := ho
  rw [List.mem_range] at hir
  rw [windowAt] at hmap
  split at hmap
  · rename_i hwi
    have hlen : ((l.drop (i + 1 - w)).take w).length = w := by
      rw [List.length_take, List.length_drop]
      omega
    have hne : (l.drop (i + 1 - w)).take w ≠ [] := by
      intro he
      rw [he] at hlen
      simp at hlen
      omega
    obtain ⟨a, as, he⟩ := List.exists_cons_of_ne_nil hne
    have ha : a ∈ l := by
      have h2 : a ∈ (l.drop (i + 1 - w)).take w := he ▸ List.mem_cons_self _ _
      exact List.mem_of_mem_drop (List.mem_of_mem_take h2)
    have hs : seqOption ((l.drop (i + 1 - w)).take w) = none := by
      refine seqOption_none_mem _ ?_
      rw [he, ← h a ha]
      exact h a ha ▸ List.mem_cons_self _ _
    rw [hs] at hmap
    exact hmap.symm
  · exact hmap.symm

theorem zipO_right_none (f : ℚ → ℚ → ℚ) (a b : List (Option ℚ))
    (h : ∀ o ∈ b, o = none) : ∀ o ∈ zipO f a b, o = none := by
  intro o ho
  cases o with
  | none => rfl
  | some z =>
    obtain ⟨x, y, hx, hy, _⟩ := some_mem_zipO f a b z ho
    exact absurd (h _ hy) (by simp)

theorem map_omap_all_none (g : ℚ → ℚ) (l : List (Option ℚ))
    (h : ∀ o ∈ l, o = none) : ∀ o ∈ l.map (Option.map g), o = none := by
  intro o ho
  rw [List.mem_map] at ho
  obtain ⟨e, he, heq⟩ := ho
  rw [h e he] at heq
  exact heq.symm

theorem replaceZero_all_none (l : List (Option ℚ)) (h : ∀ v : ℚ, some v ∈ l → v = 0) :
    ∀ o ∈ replaceZero l, o = none := by
  intro o ho
  rw [replaceZero, List.mem_map] at ho
  obtain ⟨e, he, heq⟩ := ho
  cases e with
  | none => rw [← heq]; simp
  | some v =>
    have hv := h v he
    subst hv
    rw [← heq]
    simp

/-! ### Forward fill of a none-or-constant series -/

theorem ffillAux_getD_const (v : ℚ) (l : List (Option ℚ)) :
    ∀ acc : Option ℚ, acc = none ∨ acc = some v →
    (∀ o ∈ l, o = none ∨ o = some v) →
    (ffillAux acc l).map (fun o => o.getD v) = List.replicate l.length v := by
  induction l with
  | nil => intro acc _ _; rfl
  | cons o rest ih =>
    intro acc hacc h
    rcases h o (List.mem_cons_self _ _) with ho | ho
    · subst ho
      have h1 : acc.getD v = v := by
        rcases hacc with h2 | h2 <;> subst h2 <;> rfl
      calc (ffillAux acc (none :: rest)).map (fun o => o.getD v)
          = acc.getD v :: (ffillAux acc rest).map (fun o => o.getD v) := rfl
        _ = v :: List.replicate rest.length v := by
            rw [h1, ih acc hacc (fun o ho => h o (List.mem_cons_of_mem _ ho))]
        _ = List.replicate (none :: rest : List (Option ℚ)).length v := by
            simp [List.replicate_succ]
    · subst ho
      calc (ffillAux acc (some v :: rest)).map (fun o => o.getD v)
          = v :: (ffillAux (some v) rest).map (fun o => o.getD v) := rfl
        _ = v :: List.replicate rest.length v := by
            rw [ih (some v) (Or.inr rfl) (fun o ho => h o (List.mem_cons_of_mem _ ho))]
        _ = List.replicate (some v :: rest : List (Option ℚ)).length v := by
            simp [List.replicate_succ]

theorem fillna_ffill_const (v : ℚ) (l : List (Option ℚ))
    (h : ∀ o ∈ l, o = none ∨ o = some v) :
    fillna (ffill l) v = List.replicate l.length v := by
  rw [fillna, ffill]
  exact ffillAux_getD_const v l none (Or.inl rfl) h

/-! ### Delta-sign lemmas -/

theorem diff_replicate_nonneg (n : ℕ) (c : ℚ) :
    ∀ o ∈ diff (List.replicate n c), o = none ∨ ∃ x, o = some x ∧ 0 ≤ x := by
  cases n with
  | zero => intro o ho; cases ho
  | succ m =>
    intro o ho
    rw [List.replicate_succ, diff] at ho
    rcases List.mem_cons.mp ho with h1 | h1
    · exact Or.inl h1
    · rw [show (c :: List.replicate m c) = List.replicate (m + 1) c from rfl,
        List.zipWith_replicate] at h1
      have h2 := List.eq_of_mem_replicate h1
      exact Or.inr ⟨c - c, h2, by simp⟩

theorem zipWith_diff_chain (x : ℚ) (xs : List ℚ) (h : List.Chain' (· < ·) (x :: xs)) :
    ∀ o ∈ List.zipWith (fun b a => some (b - a)) xs (x :: xs),
      ∃ y : ℚ, o = some y ∧ 0 ≤ y := by
  induction xs generalizing x with
  | nil => intro o ho; cases ho
  | cons y ys ih =>
    intro o ho
    rw [List.zipWith_cons_cons] at ho
    rcases List.mem_cons.mp ho with h1 | h1
    · have hxy : x < y := (List.chain'_cons.mp h).1
      exact ⟨y - x, h1, by linarith⟩
    · exact ih y (List.chain'_cons.mp h).2 o h1

theorem diff_chain_nonneg (s : List ℚ) (hs : List.Chain' (· < ·) s) :
    ∀ o ∈ diff s, o = none ∨ ∃ x, o = some x ∧ 0 ≤ x := by
  cases s with
  | nil => intro o ho; cases ho
  | cons x xs =>
    intro o ho
    rw [diff] at ho
    rcases List.mem_cons.mp ho with h1 | h1
    · exact Or.inl h1
    · obtain ⟨y, hy, hy0⟩ := zipWith_diff_chain x xs hs o h1
      exact Or.inr ⟨y, hy, hy0⟩

/-! ### RSI on a series with no negative delta -/

/-- When no delta is negative, `avg_dn` is a mean of zeros wherever it is
defined, so `replace(0, nan)` wipes it out, `rs` and `out` are entirely
NaN, and the fallback chain produces the constant 50 series. -/
theorem rsi_nonneg_deltas (s : List ℚ) (p : ℕ)
    (h : ∀ o ∈ diff s, o = none ∨ ∃ x, o = some x ∧ 0 ≤ x) :
    rsi s p = List.replicate s.length 50 := by
  simp only [rsi]
  have hdn : ∀ v : ℚ, some v ∈ (diff s).map whereLtZeroNeg → v = 0 := by
    intro v hv
    rw [List.mem_map] at hv
    obtain ⟨o, ho, heq⟩ := hv
    rcases h o ho with h1 | ⟨x, h1, hx⟩
    · subst h1
      injection heq with h2
      exact h2.symm
    · subst h1
      rw [whereLtZeroNeg, if_neg (not_lt.mpr hx)] at heq
      injection heq with h2
      exact h2.symm
  have havg : ∀ v : ℚ, some v ∈ rollingApply qmean p ((diff s).map whereLtZeroNeg) → v = 0 := by
    intro v hv
    obtain ⟨ws, hws, hv2⟩ := some_mem_rollingApply _ _ _ _ hv
    subst hv2
    exact qmean_zero ws (fun a ha => hdn a (hws a ha))
  have hrs := zipO_right_none (· / ·)
    (rollingApply qmean p ((diff s).map whereGtZero))
    (replaceZero (rollingApply qmean p ((diff s).map whereLtZeroNeg)))
    (replaceZero_all_none _ havg)
  have hout := map_omap_all_none (fun r => 100 - 100 / (1 + r)) _ hrs
  rw [fillna_ffill_const 50 _ (fun o ho => Or.inl (hout o ho))]
  congr 1
  simp [length_zipO, length_rollingApply, length_replaceZero, length_diff]

theorem rsi_strict_rising (s : List ℚ) (hs : List.Chain' (· < ·) s) :
    rsi s RSI_PERIOD = List.replicate s.length 50 :=
  rsi_nonneg_deltas s RSI_PERIOD (diff_chain_nonneg s hs)

theorem rsi_flat (n : ℕ) (c : ℚ) (p : ℕ) :
    rsi (List.replicate n c) p = List.replicate n 50 := by
  have h := rsi_nonneg_deltas (List.replicate n c) p (diff_replicate_nonneg n c)
  simpa using h

/-! ### Stochastic-RSI of a constant series -/

theorem rolling_agg_const (g : List ℚ → ℚ) (n p : ℕ) (c : ℚ)
    (hg : ∀ ws : List ℚ, ws ≠ [] → (∀ a ∈ ws, a = c) → g ws = c) (hp : 1 ≤ p) :
    ∀ v : ℚ, some v ∈ rollingApply g p (List.replicate n (some c)) → v = c := by
  intro v hv
  obtain ⟨ws, hlen, hmem, hv2⟩ := some_mem_rollingApply_full _ _ _ _ hv
  subst hv2
  refine hg ws ?_ ?_
  · intro he
    rw [he] at hlen
    simp at hlen
    omega
  · intro a ha
    have h2 := List.eq_of_mem_replicate (hmem a ha)
    injection h2 with h3

theorem rolling_qmean_const_values (n w : ℕ) (c : ℚ) (hw : 1 ≤ w) :
    ∀ o ∈ rollingApply qmean w (List.replicate n (some c)), o = none ∨ o = some c := by
  intro o ho
  cases o with
  | none => exact Or.inl rfl
  | some v =>
    right
    obtain ⟨ws, hlen, hmem, hv2⟩ := some_mem_rollingApply_full _ _ _ _ ho
    subst hv2
    have hne : ws ≠ [] := by
      intro he
      rw [he] at hlen
      simp at hlen
      omega
    have hval : ∀ a ∈ ws, a = c := by
      intro a ha
      have h2 := List.eq_of_mem_replicate (hmem a ha)
      injection h2 with h3
    rw [qmean_const ws c hne hval]

theorem stoch_const (n : ℕ) (c : ℚ) (p ks ds : ℕ)
    (hp : 1 ≤ p) (hks : 1 ≤ ks) (hds : 1 ≤ ds) :
    stoch_rsi_from_rsi (List.replicate n c) p ks ds =
      (List.replicate n 50, List.replicate n 50) := by
  simp only [stoch_rsi_from_rsi, List.map_replicate]
  have hmin := rolling_agg_const lmin n p c (fun ws h1 h2 => lmin_const ws c h1 h2) hp
  have hmax := rolling_agg_const lmax n p c (fun ws h1 h2 => lmax_const ws c h1 h2) hp
  have hdenom0 : ∀ v : ℚ, some v ∈ zipO (· - ·)
      (rollingApply lmax p (List.replicate n (some c)))
      (rollingApply lmin p (List.replicate n (some c))) → v = 0 := by
    intro v hv
    obtain ⟨x, y, hx, hy, hxy⟩ := some_mem_zipO _ _ _ _ hv
    rw [hmax x hx, hmin y hy] at hxy
    simpa using hxy
  have hstoch : ∀ o ∈ (zipO (· / ·)
      (zipO (· - ·) (List.replicate n (some c)) (rollingApply lmin p (List.replicate n (some c))))
      (replaceZero (zipO (· - ·)
        (rollingApply lmax p (List.replicate n (some c)))
        (rollingApply lmin p (List.replicate n (some c)))))).map (Option.map (· * 100)),
      o = none :=
    map_omap_all_none _ _ (zipO_right_none _ _ _ (replaceZero_all_none _ hdenom0))
  have hkroll := rollingApply_all_none qmean ks _ hks hstoch
  have hk : fillna (ffill (rollingApply qmean ks ((zipO (· / ·)
      (zipO (· - ·) (List.replicate n (some c)) (rollingApply lmin p (List.replicate n (some c))))
      (replaceZero (zipO (· - ·)
        (rollingApply lmax p (List.replicate n (some c)))
        (rollingApply lmin p (List.replicate n (some c)))))).map (Option.map (· * 100))))) 50
      = List.replicate n 50 := by
    rw [fillna_ffill_const 50 _ (fun o ho => Or.inl (hkroll o ho))]
    congr 1
    simp [length_rollingApply, length_zipO, length_replaceZero]
  rw [hk]
  have hd : fillna (ffill (rollingApply qmean ds ((List.replicate n (50:ℚ)).map some))) 50
      = List.replicate n 50 := by
    rw [List.map_replicate]
    rw [fillna_ffill_const 50 _ (rolling_qmean_const_values n ds 50 hds)]
    congr 1
    simp [length_rollingApply]
  rw [hd]

/-! ### EMA and MACD of a constant series -/

theorem scanl_const_fix (f : ℚ → ℚ → ℚ) (c : ℚ) (hf : f c c = c) (m : ℕ) :
    List.scanl f c (List.replicate m c) = List.replicate (m + 1) c := by
  induction m with
  | zero => rfl
  | succ k ih =>
    rw [List.replicate_succ, List.scanl_cons, hf, ih]
    rfl

theorem ema_replicate (n : ℕ) (c : ℚ) (span : ℕ) :
    ema (List.replicate n c) span = List.replicate n c := by
  cases n with
  | zero => rfl
  | succ m =>
    rw [List.replicate_succ, ema, scanl_const_fix _ c (by ring) m]
    rfl

theorem macd_replicate (n : ℕ) (c : ℚ) (fast slow sgn : ℕ) :
    macd (List.replicate n c) fast slow sgn =
      (List.replicate n 0, List.replicate n 0, List.replicate n 0) := by
  simp only [macd, ema_replicate, List.zipWith_replicate, min_self, sub_self]

/-! ### The indicator frame of a flat DataFrame -/

theorem map_close_flat (df : List Candle) (c : ℚ) (hc : ∀ x ∈ df, x.close = c) :
    df.map Candle.close = List.replicate df.length c := by
  refine List.eq_replicate_iff.mpr ⟨by simp, ?_⟩
  intro b hb
  rw [List.mem_map] at hb
  obtain ⟨x, hx, hxb⟩ := hb
  rw [← hxb]
  exact hc x hx

theorem getD_replicate_of_lt (n i : ℕ) (c v : ℚ) (hi : i < n) :
    (List.replicate n c).getD i v = c := by
  rw [List.getD_eq_getElem?_getD, List.getElem?_replicate, if_pos hi]
  rfl

theorem rowAt_flat (df : List Candle) (c : ℚ) (hc : ∀ x ∈ df, x.close = c)
    (i : ℕ) (hi : i < df.length) : rowAt df i = ⟨50, 0, 0, 50, 50⟩ := by
  have hclose := map_close_flat df c hc
  simp only [rowAt, indicatorFrame, hclose, rsi_flat, macd_replicate,
    stoch_const df.length 50 STOCH_RSI_PERIOD STOCH_K_SMOOTH STOCH_D_SMOOTH
      (by norm_num [STOCH_RSI_PERIOD]) (by norm_num [STOCH_K_SMOOTH]) (by norm_num [STOCH_D_SMOOTH]),
    getD_replicate_of_lt _ _ _ _ hi]

theorem check_signal_flat (df : List Candle) (c : ℚ) (hc : ∀ x ∈ df, x.close = c)
    (hlen : max MACD_SLOW RSI_PERIOD + 5 ≤ df.length) :
    (check_signal df).1 = none ∧ (check_signal df).2 ≠ none := by
  have hne : df.isEmpty = false := isEmpty_false_of_len hlen
  have hlt : ¬ (df.length < max MACD_SLOW RSI_PERIOD + 5) := not_lt.mpr hlen
  have h2 : df.length - 2 < df.length := by
    have := isEmpty_false_of_len hlen
    omega
  have h1 : df.length - 1 < df.length := by omega
  have hprev := rowAt_flat df c hc (df.length - 2) (by omega)
  have hcurr := rowAt_flat df c hc (df.length - 1) (by omega)
  have hlong : long_cond (rowAt df (df.length - 2)) (rowAt df (df.length - 1)) = false := by
    rw [hprev, hcurr]
    decide
  have hshort : short_cond (rowAt df (df.length - 2)) (rowAt df (df.length - 1)) = false := by
    rw [hprev, hcurr]
    decide
  constructor
  · simp [check_signal, hne, decide_eq_false hlt, hlong, hshort]
  · simp [check_signal, hne, decide_eq_false hlt, hlong, hshort]

/-! ### Index-wise inversion lemmas for the stoch pipeline -/

theorem zipO_getElem?_some (f : ℚ → ℚ → ℚ) (a b : List (Option ℚ)) (i : ℕ) (z : ℚ)
    (h : (zipO f a b)[i]? = some (some z)) :
    ∃ x y, a[i]? = some (some x) ∧ b[i]? = some (some y) ∧ z = f x y := by
  rw [zipO, List.getElem?_zipWith] at h
  cases ha : a[i]? with
  | none => rw [ha] at h; cases h
  | some o1 =>
    cases hb : b[i]? with
    | none => rw [ha, hb] at h; cases h
    | some o2 =>
      rw [ha, hb] at h
      cases o1 with
      | none => injection h with h2; cases h2
      | some x =>
        cases o2 with
        | none => injection h with h2; cases h2
        | some y =>
          injection h with h2
          injection h2 with h3
          exact ⟨x, y, rfl, rfl, h3.symm⟩

theorem replaceZero_getElem?_some (l : List (Option ℚ)) (i : ℕ) (z : ℚ)
    (h : (replaceZero l)[i]? = some (some z)) :
    l[i]? = some (some z) ∧ z ≠ 0 := by
  rw [replaceZero, List.getElem?_map] at h
  cases hl : l[i]? with
  | none => rw [hl] at h; cases h
  | some o =>
    rw [hl] at h
    injection h with h2
    have h3 : (if o = some 0 then none else o) = some z := h2
    by_cases h0 : o = some 0
    · rw [if_pos h0] at h3
      cases h3
    · rw [if_neg h0] at h3
      subst h3
      exact ⟨rfl, fun hz0 => h0 (by rw [hz0])⟩

theorem map_omap_getElem?_some (g : ℚ → ℚ) (l : List (Option ℚ)) (i : ℕ) (z : ℚ)
    (h : (l.map (Option.map g))[i]? = some (some z)) :
    ∃ r, l[i]? = some (some r) ∧ z = g r := by
  rw [List.getElem?_map] at h
  cases hl : l[i]? with
  | none => rw [hl] at h; cases h
  | some o =>
    rw [hl] at h
    cases o with
    | none => injection h with h2; cases h2
    | some r =>
      injection h with h2
      injection h2 with h3
      exact ⟨r, rfl, h3.symm⟩

theorem rollingApply_getElem?_some (f : List ℚ → ℚ) (w : ℕ) (l : List (Option ℚ)) (i : ℕ)
    (hi : i < l.length) (z : ℚ) (h : (rollingApply f w l)[i]? = some (some z)) :
    ∃ ws, windowAt l w i = some ws ∧ z = f ws := by
  rw [rollingApply_getElem? f w l i hi] at h
  injection h with h2
  cases hw : windowAt l w i with
  | none => rw [hw] at h2; cases h2
  | some ws =>
    rw [hw] at h2
    injection h2 with h3
    exact ⟨ws, rfl, h3.symm⟩

/-- Every defined value of the raw `stoch` series (before smoothing)
lies in [0, 100]: the rolling window that defines the min and the max
contains the current RSI value itself. -/
theorem stoch_values_bounds (rsi_s : List ℚ) (p : ℕ) (hp : 1 ≤ p) (z : ℚ)
    (h : some z ∈ (zipO (· / ·)
        (zipO (· - ·) (rsi_s.map some) (rollingApply lmin p (rsi_s.map some)))
        (replaceZero (zipO (· - ·) (rollingApply lmax p (rsi_s.map some))
          (rollingApply lmin p (rsi_s.map some))))).map (Option.map (· * 100))) :
    0 ≤ z ∧ z ≤ 100 := by
  obtain ⟨i, hi, hgi⟩ := List.getElem_of_mem h
  have hq0 : ((zipO (· / ·)
      (zipO (· - ·) (rsi_s.map some) (rollingApply lmin p (rsi_s.map some)))
      (replaceZero (zipO (· - ·) (rollingApply lmax p (rsi_s.map some))
        (rollingApply lmin p (rsi_s.map some))))).map (Option.map (· * 100)))[i]?
      = some (some z) := by
    rw [List.getElem?_eq_getElem hi, hgi]
  have hir : i < (rsi_s.map some).length := by
    simp only [List.length_map, length_zipO, length_replaceZero, length_rollingApply] at hi ⊢
    omega
  obtain ⟨z0, hquot, hz⟩ := map_omap_getElem?_some _ _ _ _ hq0
  obtain ⟨nu, dn, hsub, hden, hz0⟩ := zipO_getElem?_some _ _ _ i z0 hquot
  obtain ⟨hdenPre, hdn0⟩ := replaceZero_getElem?_some _ i dn hden
  obtain ⟨mx, mn, hmax, hmin, hdn⟩ := zipO_getElem?_some _ _ _ i dn hdenPre
  obtain ⟨rv, mn', hr, hmin', hnu⟩ := zipO_getElem?_some _ _ _ i nu hsub
  have hmm : mn' = mn := by
    have h2 := hmin.symm.trans hmin'
    injection h2 with h3
    injection h3 with h4
    exact h4.symm
  obtain ⟨ws, hws, hmneq⟩ := rollingApply_getElem?_some lmin p _ i hir mn hmin
  obtain ⟨ws2, hws2, hmxeq⟩ := rollingApply_getElem?_some lmax p _ i hir mx hmax
  have hwseq : ws2 = ws := by
    have h2 := hws.symm.trans hws2
    injection h2 with h3
    exact h3.symm
  rw [hwseq] at hmxeq
  obtain ⟨v, hvr, hvmem⟩ := windowAt_self_mem _ p i ws hp hir hws
  have hveq : v = rv := by
    have h2 := hvr.symm.trans hr
    simp only [Option.some.injEq] at h2
    exact h2
  have hmnle : mn ≤ rv := by
    rw [hmneq, ← hveq]
    exact lmin_le ws v hvmem
  have hlemx : rv ≤ mx := by
    rw [hmxeq, ← hveq]
    exact le_lmax ws v hvmem
  have hdnpos : 0 < dn := by
    have hge : 0 ≤ dn := by
      rw [hdn]
      exact sub_nonneg.mpr (le_trans hmnle hlemx)
    exact lt_of_le_of_ne hge (Ne.symm hdn0)
  have hz0n : 0 ≤ z0 := by
    rw [hz0, hnu, hmm]
    exact div_nonneg (sub_nonneg.mpr hmnle) (le_of_lt hdnpos)
  have hz01 : z0 ≤ 1 := by
    rw [hz0, hnu, hmm, div_le_one hdnpos, hdn]
    exact sub_le_sub_right hlemx _
  subst hz
  constructor
  · linarith
  · linarith

/-- The fillna(ffill(rolling mean)) smoothing keeps values in [0, 100]
when the source's defined values are in [0, 100]. -/
theorem rolling_mean_bounds_chain (src : List (Option ℚ)) (w : ℕ)
    (hsrc : ∀ v : ℚ, some v ∈ src → 0 ≤ v ∧ v ≤ 100) :
    ∀ x ∈ fillna (ffill (rollingApply qmean w src)) 50, 0 ≤ x ∧ x ≤ 100 := by
  intro x hx
  rcases mem_fillna_ffill _ _ _ hx with h50 | hmem
  · subst h50
    norm_num
  · obtain ⟨ws, hws, hxw⟩ := some_mem_rollingApply _ _ _ _ hmem
    subst hxw
    constructor
    · exact qmean_nonneg ws (fun a ha => (hsrc a (hws a ha)).1)
    · exact qmean_le ws 100 (by norm_num) (fun a ha => (hsrc a (hws a ha)).2)

/-- C8: for every input series, RSI after forward-fill and fallback and
the Stochastic-RSI K and D after forward-fill and fallback all lie in
[0, 100] at every index (they are total functions into ℚ, hence never
undefined). -/
theorem C8_indicator_bounds (s : List ℚ) :
    (∀ x ∈ rsi s RSI_PERIOD, 0 ≤ x ∧ x ≤ 100)
  ∧ (∀ x ∈ (stoch_rsi_from_rsi s STOCH_RSI_PERIOD STOCH_K_SMOOTH STOCH_D_SMOOTH).1,
      0 ≤ x ∧ x ≤ 100)
  ∧ (∀ x ∈ (stoch_rsi_from_rsi s STOCH_RSI_PERIOD STOCH_K_SMOOTH STOCH_D_SMOOTH).2,
      0 ≤ x ∧ x ≤ 100) := by
  have hk : ∀ x ∈ fillna (ffill (rollingApply qmean STOCH_K_SMOOTH ((zipO (· / ·)
      (zipO (· - ·) (s.map some) (rollingApply lmin STOCH_RSI_PERIOD (s.map some)))
      (replaceZero (zipO (· - ·) (rollingApply lmax STOCH_RSI_PERIOD (s.map some))
        (rollingApply lmin STOCH_RSI_PERIOD (s.map some))))).map (Option.map (· * 100))))) 50,
      0 ≤ x ∧ x ≤ 100 :=
    rolling_mean_bounds_chain _ _ (fun v hv =>
      stoch_values_bounds s STOCH_RSI_PERIOD (by norm_num [STOCH_RSI_PERIOD]) v hv)
  refine ⟨rsi_mem_bounds s RSI_PERIOD, hk, ?_⟩
  refine rolling_mean_bounds_chain _ STOCH_D_SMOOTH ?_
  intro v hv
  rw [List.mem_map] at hv
  obtain ⟨a, ha, hav⟩ := hv
  injection hav with h2
  subst h2
  exact hk a ha

/-- Witness for C8 at the concrete series `[1, 2]`, whose RSI, K and D
values all equal 50. -/
theorem C8_indicator_bounds_witness :
    ((0:ℚ) ≤ 50 ∧ (50:ℚ) ≤ 100) ∧ ((0:ℚ) ≤ 50 ∧ (50:ℚ) ≤ 100)
  ∧ ((0:ℚ) ≤ 50 ∧ (50:ℚ) ≤ 100) :=
  ⟨(C8_indicator_bounds [1, 2]).1 50 (by decide),
   (C8_indicator_bounds [1, 2]).2.1 50 (by decide),
   (C8_indicator_bounds [1, 2]).2.2 50 (by decide)⟩

/-- C6: on a flat close series of sufficient length the
division-by-zero fallbacks give RSI = 50 at every index and
Stochastic-RSI K = D = 50 at every index, and `check_signal` returns no
direction. -/
theorem C6_flat_series (df : List Candle) (c : ℚ) (hc : ∀ x ∈ df, x.close = c)
    (hlen : max MACD_SLOW RSI_PERIOD + 5 ≤ df.length) :
    rsi (df.map Candle.close) RSI_PERIOD = List.replicate df.length 50
  ∧ (stoch_rsi_from_rsi (rsi (df.map Candle.close) RSI_PERIOD) STOCH_RSI_PERIOD
      STOCH_K_SMOOTH STOCH_D_SMOOTH).1 = List.replicate df.length 50
  ∧ (stoch_rsi_from_rsi (rsi (df.map Candle.close) RSI_PERIOD) STOCH_RSI_PERIOD
      STOCH_K_SMOOTH STOCH_D_SMOOTH).2 = List.replicate df.length 50
  ∧ (check_signal df).1 = none := by
  have hclose := map_close_flat df c hc
  have h1 : rsi (df.map Candle.close) RSI_PERIOD = List.replicate df.length 50 := by
    rw [hclose, rsi_flat]
  have h2 := stoch_const df.length 50 STOCH_RSI_PERIOD STOCH_K_SMOOTH STOCH_D_SMOOTH
    (by norm_num [STOCH_RSI_PERIOD]) (by norm_num [STOCH_K_SMOOTH])
    (by norm_num [STOCH_D_SMOOTH])
  refine ⟨h1, ?_, ?_, (check_signal_flat df c hc hlen).1⟩
  · rw [h1, h2]
  · rw [h1, h2]

/-- Witness for C6 at a concrete flat 31-candle frame with close 7. -/
theorem C6_flat_series_witness :
    rsi (flat31c.map Candle.close) RSI_PERIOD = List.replicate 31 50
  ∧ (stoch_rsi_from_rsi (rsi (flat31c.map Candle.close) RSI_PERIOD) STOCH_RSI_PERIOD
      STOCH_K_SMOOTH STOCH_D_SMOOTH).1 = List.replicate 31 50
  ∧ (stoch_rsi_from_rsi (rsi (flat31c.map Candle.close) RSI_PERIOD) STOCH_RSI_PERIOD
      STOCH_K_SMOOTH STOCH_D_SMOOTH).2 = List.replicate 31 50
  ∧ (check_signal flat31c).1 = none :=
  C6_flat_series flat31c 7 (by decide) (by decide)

/-- C1 (amended): for every strictly rising close series, `rsi` returns
50.0 at every index — not values tending to 100.  All deltas are
positive, so `avg_dn` is 0 wherever defined; `replace(0, nan)` turns it
into NaN, RS and the raw RSI are NaN everywhere, forward fill finds no
defined value, and the 50.0 fallback fills the whole series. -/
theorem C1_rsi_rising_amended (s : List ℚ) (hs : List.Chain' (· < ·) s) :
    rsi s RSI_PERIOD = List.replicate s.length 50 :=
  rsi_strict_rising s hs

/-- Witness for the amended C1 at the concrete rising series `[0, 1, 2]`. -/
theorem C1_rsi_rising_amended_witness :
    rsi [0, 1, 2] RSI_PERIOD = List.replicate 3 50 :=
  C1_rsi_rising_amended [0, 1, 2]
    (by simp only [List.chain'_cons, List.chain'_singleton, and_true]; norm_num)

/-- Counterexample to C1 as stated: the strictly rising close series
`0, 1, ..., 15` (length 16 > period 14) yields the constant-50 RSI
series; its last value is 50, and 50 ≠ 100, so the RSI values do not
tend to 100. -/
theorem C1_rsi_rising_counterexample :
    rsi risingCloses RSI_PERIOD = List.replicate 16 50
  ∧ (List.replicate 16 (50:ℚ)).getLast? = some 50 ∧ (50:ℚ) ≠ 100 := by
  refine ⟨?_, by decide, by norm_num⟩
  exact rsi_strict_rising risingCloses
    (by simp only [risingCloses, List.chain'_cons, List.chain'_singleton, and_true]; norm_num)

/-- Witness for C2: the empty frame and a concrete flat 31-candle frame. -/
theorem C2_insufficient_data_witness :
    check_signal [] = (none, none) ∧ (check_signal flat31c).2 ≠ none :=
  ⟨(C2_insufficient_data []).1 (by decide),
   (C2_insufficient_data flat31c).2 (by decide)
     (check_signal_flat flat31c 7 (by decide) (by decide)).1⟩

/-- Witness for C3 at a concrete flat 31-candle frame. -/
theorem C3_signal_rules_witness :
    ((check_signal flat31c).1 = some Direction.LONG ↔ LONG_rule flat31c)
  ∧ ((check_signal flat31c).1 = some Direction.SHORT ↔ SHORT_rule flat31c) :=
  C3_signal_rules flat31c (by decide)

/-- Witness for C4 at a concrete run and a concrete cycle step. -/
theorem C4_dedup_witness :
    (runLoop [(flat31c, Except.ok ())]).sent.Nodup
  ∧ (3:ℤ) ∈ (cycle ⟨[3], []⟩ (flat31c, Except.ok ())).alerted
  ∧ (3:ℤ) ∈ ([3] : List ℤ) :=
  ⟨(C4_dedup_at_most_once [(flat31c, Except.ok ())]).1,
   (C4_dedup_at_most_once [(flat31c, Except.ok ())]).2.1 ⟨[3], []⟩ (flat31c, Except.ok ())
     (by decide),
   (C4_dedup_at_most_once [(flat31c, Except.ok ())]).2.2 ⟨[3], [3]⟩ ([], Except.ok ()) 3
     (by decide) (by decide)⟩
